import Mathlib

/-!
Verification of the grid-filter program `src/submatrix.py`.

The program holds a source sequence `nums = list(range(16))`, a function
`submatrix(row, col)` that filters `nums` by flat index, and a driving
loop collecting `submatrix(i, j)` for all 16 `(i, j)` pairs with
`0 ≤ i, j ≤ 3`.  Python's `%` on integers returns a result with the sign
of the (positive) divisor, which is exactly `Int.emod`, the `%` of `ℤ`
in Lean, so `row` and `col` are embedded as `ℤ` and the filter condition
is translated verbatim.
-/

/-- Source sequence of the program: `nums = list(range(16))`. -/
def nums : List ℤ := (List.range 16).map (fun n => (n : ℤ))

/-- Flat-index filter condition of the loop body of `submatrix`:
`(i - col) % 4 != 0 and ((i >= (row + 1) * 4) or (i < row * 4))`,
where `i` is the enumeration index. -/
def keep (row col : ℤ) (i : ℕ) : Bool :=
  decide ((((i : ℤ) - col) % 4 ≠ 0) ∧
    (((i : ℤ) ≥ (row + 1) * 4) ∨ ((i : ℤ) < row * 4)))

/-- State-passing form of `submatrix`: it receives the current `nums`
list, appends `item` to a fresh result for every pair `(i, item)` of
`enumerate(nums)` whose index passes the filter, and hands back the
`nums` list as the call leaves it (the body only reads `nums`). -/
def submatrixOn (ns : List ℤ) (row col : ℤ) : List ℤ × List ℤ :=
  ((ns.enum.filter (fun p => keep row col p.1)).map Prod.snd, ns)

/-- The function `submatrix(row, col)` of `src/submatrix.py`, reading the
global `nums`. -/
def submatrix (row col : ℤ) : List ℤ :=
  (submatrixOn nums row col).1

/-- Driving loop of the program:
`for i in range(4): for j in range(4): result.append(submatrix(i, j))`. -/
def result : List (List ℤ) :=
  (List.range 4).flatMap (fun i => (List.range 4).map (fun j =>
    submatrix (i : ℤ) (j : ℤ)))

/-- The 16 `(row, col)` pairs of the driving loop, `row` outer and `col`
inner, both from 0 to 3. -/
def pairs : List (ℤ × ℤ) :=
  (List.range 4).flatMap (fun i => (List.range 4).map (fun j =>
    ((i : ℤ), (j : ℤ))))

/-- The whole program as a fold that threads the `nums` list through
every `submatrix` call while accumulating the result collection, so that
the final state of `nums` is observable. -/
def driveLoop : List ℤ × List (List ℤ) :=
  pairs.foldl (fun st p =>
    ((submatrixOn st.1 p.1 p.2).2, st.2 ++ [(submatrixOn st.1 p.1 p.2).1]))
    (nums, [])

/-- Specification-side description of `submatrix(row, col)`: the elements
`nums[i]`, taken in ascending order of `i` over `0..15`, for which both
`(i - col) mod 4 ≠ 0` and (`i ≥ (row+1)*4` or `i < row*4`) hold.  The
filter consults only the positional index `i`, never the value. -/
def specSubmatrix (row col : ℤ) : List ℤ :=
  ((List.range 16).filter (fun (i : ℕ) =>
      decide ((((i : ℤ) - col) % 4 ≠ 0) ∧
        (((i : ℤ) ≥ (row + 1) * 4) ∨ ((i : ℤ) < row * 4))))).map
    (fun (i : ℕ) => nums.getD i 0)

/-- Variant of `submatrix` whose column test is the direct membership
test `i % 4 ≠ col` instead of the subtraction-based `(i - col) % 4 ≠ 0`,
as the spec's design note recommends. -/
def submatrixDirect (row col : ℤ) : List ℤ :=
  (nums.enum.filter (fun p =>
      decide ((((p.1 : ℤ) % 4) ≠ col) ∧
        (((p.1 : ℤ) ≥ (row + 1) * 4) ∨ ((p.1 : ℤ) < row * 4))))).map
    Prod.snd

/-- Filter of `nums` by the column condition alone; `submatrix row col`
collapses to this whenever `row` is outside `0..3`. -/
def colOnly (col : ℤ) : List ℤ :=
  (nums.enum.filter (fun p =>
      decide ((((p.1 : ℤ) - col) % 4 ≠ 0)))).map Prod.snd

/- Helper lemmas shared by the claim theorems. -/

/-- The filter condition only sees `col` through `col % 4`. -/
lemma keep_col_emod (row col : ℤ) (i : ℕ) :
    keep row col i = keep row (col % 4) i := by
  unfold keep
  rw [decide_eq_decide]
  have h : ((i : ℤ) - col) % 4 = ((i : ℤ) - col % 4) % 4 := by omega
  rw [h]

/-- `submatrix` only sees `col` through `col % 4`. -/
lemma submatrix_col_emod (row col : ℤ) :
    submatrix row col = submatrix row (col % 4) := by
  unfold submatrix submatrixOn
  exact congrArg (List.map Prod.snd)
    (List.filter_congr (fun p _ => keep_col_emod row col p.1))

/-- Every index produced by enumerating `nums` is below 16. -/
lemma enum_fst_lt (p : ℕ × ℤ) (hp : p ∈ nums.enum) : p.1 < 16 := by
  revert p
  decide

/-- When `row` lies outside `0..3` the row-band condition holds for every
index of `nums`, so `submatrix` degenerates to the column filter. -/
lemma submatrix_row_outside (row col : ℤ) (h : row < 0 ∨ 3 < row) :
    submatrix row col = colOnly col := by
  unfold submatrix submatrixOn colOnly
  refine congrArg (List.map Prod.snd) (List.filter_congr ?_)
  intro p hp
  have hlt : p.1 < 16 := enum_fst_lt p hp
  have hlt' : (p.1 : ℤ) < 16 := by exact_mod_cast hlt
  have h0 : (0 : ℤ) ≤ (p.1 : ℤ) := Int.natCast_nonneg _
  unfold keep
  rw [decide_eq_decide]
  constructor
  · exact fun hc => hc.1
  · intro hc
    exact ⟨hc, by omega⟩

/-- The result of `submatrix` is a subsequence of `nums`, for arbitrary
integer arguments. -/
lemma submatrix_sublist (row col : ℤ) : (submatrix row col).Sublist nums := by
  unfold submatrix submatrixOn
  have h1 : (nums.enum.filter (fun p => keep row col p.1)).Sublist nums.enum :=
    List.filter_sublist _
  have h2 := h1.map Prod.snd
  rw [List.enum_map_snd] at h2
  exact h2

/-- Length of `submatrix row col` for arbitrary integer arguments: 9 when
`row` is in range, 12 otherwise. -/
lemma submatrix_length (row col : ℤ) :
    (submatrix row col).length = if 0 ≤ row ∧ row ≤ 3 then 9 else 12 := by
  have hc0 : 0 ≤ col % 4 := Int.emod_nonneg col (by norm_num)
  have hc4 : col % 4 < 4 := Int.emod_lt_of_pos col (by norm_num)
  rw [submatrix_col_emod]
  by_cases h : 0 ≤ row ∧ row ≤ 3
  · rw [if_pos h]
    obtain ⟨h0, h3⟩ := h
    generalize hgen : col % 4 = c at hc0 hc4
    interval_cases row <;> interval_cases c <;> decide
  · rw [if_neg h]
    have hout : row < 0 ∨ 3 < row := by omega
    rw [submatrix_row_outside _ _ hout]
    generalize hgen : col % 4 = c at hc0 hc4
    interval_cases c <;> decide

/- Claim theorems. -/

/-- C1: for every `row` and `col` in `{0,1,2,3}`, `submatrix(row, col)`
returns exactly the elements `nums[i]`, in ascending order of `i` over
`0..15`, for which both `(i - col) mod 4 ≠ 0` and
(`i ≥ (row+1)*4` or `i < row*4`) hold; the filter is purely positional,
never consulting the element's value. -/
theorem submatrix_eq_spec :
    ∀ row col : Fin 4, submatrix row.1 col.1 = specSubmatrix row.1 col.1 := by
  decide

/-- C2: for every `row` and `col` in `{0,1,2,3}`, `submatrix(row, col)`
has length exactly 9, and the overlap between the row band and the
column class (indices in both) consists of exactly one index. -/
theorem submatrix_length_nine :
    ∀ row col : Fin 4, (submatrix row.1 col.1).length = 9 ∧
      ((List.range 16).filter (fun (i : ℕ) =>
          decide ((((i : ℤ) - (col.1 : ℤ)) % 4 = 0) ∧
            ((i : ℤ) ≥ (row.1 : ℤ) * 4) ∧
            ((i : ℤ) < ((row.1 : ℤ) + 1) * 4)))).length = 1 := by
  decide

/-- C3: the output collection has exactly 16 entries, appended with `row`
outer and `col` inner, so the entry at position `4*row + col` is
`submatrix(row, col)`; the first entry is `submatrix(0, 0)`, the last is
`submatrix(3, 3)`, and 144 integers appear in total. -/
theorem result_layout :
    result.length = 16 ∧
    (∀ row col : Fin 4,
      result.getD (4 * row.1 + col.1) [] = submatrix row.1 col.1) ∧
    result.head? = some (submatrix 0 0) ∧
    result.getLast? = some (submatrix 3 3) ∧
    (result.map List.length).sum = 144 := by
  refine ⟨?_, ?_, ?_, ?_, ?_⟩ <;> decide

/-- C4: for every index `i` in `0..15` and `col` in `{0,1,2,3}`, the
code's test `(i - col) % 4 = 0` agrees with the direct column-membership
test `i % 4 = col`, and consequently `submatrix` agrees with the variant
built on the direct test. -/
theorem submatrix_direct_equiv :
    (∀ i : Fin 16, ∀ col : Fin 4,
      ((((i.1 : ℤ) - (col.1 : ℤ)) % 4 = 0) ↔ ((i.1 : ℤ) % 4 = (col.1 : ℤ)))) ∧
    (∀ row col : Fin 4, submatrix row.1 col.1 = submatrixDirect row.1 col.1) := by
  constructor <;> decide

/-- C5: `submatrix(0, 0)` returns exactly `[5, 6, 7, 9, 10, 11, 13, 14, 15]`,
of length 9. -/
theorem submatrix_zero_zero :
    submatrix 0 0 = [5, 6, 7, 9, 10, 11, 13, 14, 15] ∧
    (submatrix 0 0).length = 9 := by
  refine ⟨?_, ?_⟩ <;> decide

/-- C6: `submatrix(3, 3)` returns exactly `[0, 1, 2, 4, 5, 6, 8, 9, 10]`,
of length 9. -/
theorem submatrix_three_three :
    submatrix 3 3 = [0, 1, 2, 4, 5, 6, 8, 9, 10] ∧
    (submatrix 3 3).length = 9 := by
  refine ⟨?_, ?_⟩ <;> decide

/-- C7: for every `row` and `col` in `{0,1,2,3}`, the list returned by
`submatrix(row, col)` is strictly increasing element by element. -/
theorem submatrix_strict_mono :
    ∀ row col : Fin 4, List.Pairwise (fun a b => a < b)
      (submatrix row.1 col.1) := by
  decide

/-- C8: for every pair of integers `row` and `col`, also outside `0..3`,
`submatrix(row, col)` returns normally: it yields a list that is a
subsequence of `nums`, performs no range validation, and leaves the
`nums` list untouched. -/
theorem submatrix_total :
    ∀ row col : ℤ, (submatrixOn nums row col).2 = nums ∧
      (submatrix row col).Sublist nums :=
  fun row col => ⟨rfl, submatrix_sublist row col⟩

/-- C9: the source sequence `nums` equals `[0, 1, ..., 15]`, it is left
unchanged by every `submatrix` call on any list and by the whole driving
loop, and the collection the loop builds is exactly `result`. -/
theorem nums_readonly :
    nums = (List.range 16).map (fun n => (n : ℤ)) ∧
    (∀ ns : List ℤ, ∀ row col : ℤ, (submatrixOn ns row col).2 = ns) ∧
    driveLoop.1 = nums ∧
    driveLoop.2 = result := by
  refine ⟨rfl, fun ns row col => rfl, ?_, ?_⟩ <;> decide

/-- C10: for every pair of integers `row` and `col`, the result of
`submatrix(row, col)` is never empty: its length is exactly 9 when
`0 ≤ row ≤ 3` and exactly 12 otherwise, since the column test always
excludes exactly 4 of the 16 indices while the row band misses `0..15`
entirely for out-of-range `row`. -/
theorem submatrix_never_empty :
    ∀ row col : ℤ, submatrix row col ≠ [] ∧
      (submatrix row col).length = if 0 ≤ row ∧ row ≤ 3 then 9 else 12 := by
  intro row col
  have h := submatrix_length row col
  refine ⟨?_, h⟩
  intro hnil
  rw [hnil] at h
  simp only [List.length_nil] at h
  split_ifs at h
